import Mathlib

/-!
Verification of the dependency-to-issue resolution pipeline of the
`cargo-contribute` repository, as a shallow embedding in Lean 4.

Strings are modelled as lists of Unicode characters (`Str := List Char`).
Rust's per-character predicates (`char::is_whitespace`, `char::is_alphanumeric`,
`char::is_uppercase`, `str::to_lowercase`) are modelled on the ASCII range,
which covers every string the pipeline compares against its fixed allow-list
and every repository locator shape at issue.
-/

/-- Strings are modelled as lists of characters. -/
abbrev Str := List Char

/-- Model of Rust `char::is_whitespace` on the ASCII range
(space, tab, line feed, vertical tab, form feed, carriage return). -/
def isWhitespaceC (c : Char) : Bool :=
  c.toNat == 32 || (9 ≤ c.toNat && c.toNat ≤ 13)

/-- Model of Rust `char::is_uppercase` on the ASCII range. -/
def isUppercaseC (c : Char) : Bool :=
  65 ≤ c.toNat && c.toNat ≤ 90

/-- Model of Rust `char::is_lowercase` on the ASCII range. -/
def isLowercaseC (c : Char) : Bool :=
  97 ≤ c.toNat && c.toNat ≤ 122

/-- Model of Rust `char::is_ascii_digit`. -/
def isDigitC (c : Char) : Bool :=
  48 ≤ c.toNat && c.toNat ≤ 57

/-- Model of Rust `char::is_alphanumeric` on the ASCII range. -/
def isAlphanumericC (c : Char) : Bool :=
  isUppercaseC c || isLowercaseC c || isDigitC c

/-- Model of Rust `char::to_lowercase` (ASCII range: uppercase letters are
shifted by 32, everything else is unchanged). -/
def toLowercaseC (c : Char) : Char :=
  if h : 65 ≤ c.toNat ∧ c.toNat ≤ 90 then
    Char.ofNatAux (c.toNat + 32) (Or.inl (by omega))
  else c

/-- Model of Rust's `str::split` with a character predicate: the string is cut
at every character satisfying the predicate, and empty fragments between two
consecutive separators (or at the ends) are kept.  The result is always
non-empty. -/
def splitOnP (p : Char → Bool) : Str → List Str
  | [] => [[]]
  | c :: rest =>
    if p c then [] :: splitOnP p rest
    else
      match splitOnP p rest with
      | [] => [[c]]
      | t :: ts => (c :: t) :: ts

/-- Model of itertools' `.join(" ")`: concatenate the fragments with a single
space between two consecutive ones. -/
def joinSpace : List Str → Str
  | [] => []
  | [t] => t
  | t :: t' :: rest => t ++ ' ' :: joinSpace (t' :: rest)

/-- Model of Rust `str::trim` (strip leading and trailing whitespace). -/
def trimStr (w : Str) : Str :=
  ((w.dropWhile isWhitespaceC).reverse.dropWhile isWhitespaceC).reverse

/-- Translation of `canonicalize_label` from `src/issues/producer.rs`:
split on whitespace, trim each fragment, keep only alphanumeric characters,
drop single-character fragments that are an uppercase letter, lowercase, and
join with single spaces. -/
def canonicalize_label (label : Str) : Str :=
  joinSpace
    (((((splitOnP isWhitespaceC label).map trimStr).map
          (fun w => w.filter isAlphanumericC)).filter
        (fun w => !(w.length == 1 && w.all isUppercaseC))).map
      (fun w => w.map toLowercaseC))

/-- Translation of the `ISSUE_LABELS` allow-list from `src/issues/producer.rs`. -/
def ISSUE_LABELS : List Str :=
  [['h', 'e', 'l', 'p', ' ', 'w', 'a', 'n', 't', 'e', 'd'],
   ['g', 'o', 'o', 'd', ' ', 'f', 'i', 'r', 's', 't', ' ', 'i', 's', 's', 'u', 'e'],
   ['e', 'a', 's', 'y'],
   ['b', 'e', 'g', 'i', 'n', 'n', 'e', 'r']]

/-- Modelled from the spec: the canonicalization algorithm exactly as §4.3
words it, reading "split on whitespace" in the usual way that only produces
the (non-empty) whitespace-separated words of the string. -/
def canonicalize_label_spec (label : Str) : Str :=
  joinSpace
    ((((((splitOnP isWhitespaceC label).filter (fun w => !w.isEmpty)).map
            trimStr).map
          (fun w => w.filter isAlphanumericC)).filter
        (fun w => !(w.length == 1 && w.all isUppercaseC))).map
      (fun w => w.map toLowercaseC))

/-- Processing stage of `canonicalize_label` after the whitespace split. -/
def processTokens (l : List Str) : List Str :=
  (((l.map trimStr).map (fun w => w.filter isAlphanumericC)).filter
      (fun w => !(w.length == 1 && w.all isUppercaseC))).map
    (fun w => w.map toLowercaseC)

/-- Translation of the `Repository` struct from `src/model/github.rs`. -/
structure Repository where
  owner : Str
  name : Str
deriving DecidableEq

/-- Model of the `\w` character class of the regex crate, on the ASCII range. -/
def isWordChar (c : Char) : Bool :=
  isAlphanumericC c || c == '_'

/-- Strip a literal from the front of a string, returning the remainder. -/
def dropLit : Str → Str → Option Str
  | [], s => some s
  | _ :: _, [] => none
  | l :: ls, c :: cs => if l == c then dropLit ls cs else none

/-- Characters that may appear in a URL scheme. -/
def isSchemeChar (c : Char) : Bool :=
  isAlphanumericC c || c == '+' || c == '-' || c == '.'

/-- Character is not a colon (used to delimit the URL scheme). -/
def notColon (c : Char) : Bool := !(c == ':')

/-- Character does not end the URL authority component. -/
def notSegSep (c : Char) : Bool := !(c == '/') && !(c == '?') && !(c == '#')

/-- Character does not end the URL path component. -/
def notQuery (c : Char) : Bool := !(c == '?') && !(c == '#')

/-- Parsed form of a URL: scheme, host and path segments. -/
structure ParsedUrl where
  scheme : Str
  host : Str
  pathSegments : List Str
deriving DecidableEq

/-- Host part of an authority component: drop the user-info part (up to the
last `@`), drop the port (after a `:`), and lowercase. -/
def hostOfAuthority (auth : Str) : Str :=
  (((auth.reverse.takeWhile (fun c => !(c == '@'))).reverse).takeWhile
    notColon).map toLowercaseC

/-- Path segments of a URL path: the absolute path is split on `/`, and the
empty path of a special-scheme URL has the single segment `""`. -/
def pathSegmentsOf (path : Str) : List Str :=
  match path with
  | '/' :: rest => splitOnP (fun c => c == '/') rest
  | p => splitOnP (fun c => c == '/') p

/-- Model of `Url::parse` from the `url` crate, restricted to what the
repository-locator logic consumes: the scheme (validated as non-empty and made
of scheme characters, followed by `://`), the lowercased host (user-info and
port stripped), and the path split into segments, with query and fragment
discarded.  Percent-encoding and other exotic URL features are outside the
model's scope. -/
def urlParse (s : Str) : Option ParsedUrl :=
  match dropLit [':', '/', '/'] (s.drop (s.takeWhile notColon).length) with
  | none => none
  | some rest =>
    if (s.takeWhile notColon) ≠ [] ∧ (s.takeWhile notColon).all isSchemeChar then
      if rest.takeWhile notSegSep = [] then none
      else
        some ⟨s.takeWhile notColon, hostOfAuthority (rest.takeWhile notSegSep),
          pathSegmentsOf ((rest.drop (rest.takeWhile notSegSep).length).takeWhile notQuery)⟩
    else none

/-- Translation of the `GITHUB_HOSTS` constant from `src/model/github.rs`. -/
def GITHUB_HOSTS : List Str :=
  [['g', 'i', 't', 'h', 'u', 'b', '.', 'c', 'o', 'm'],
   ['w', 'w', 'w', '.', 'g', 'i', 't', 'h', 'u', 'b', '.', 'c', 'o', 'm']]

/-- Fuel-indexed worker for `trim_end_matches_git`, operating on the reversed
string: strip the reversed suffix `.git` (that is, `tig.`) as many times as it
occurs.  The fuel (instantiated with the string length) only makes the
recursion structural. -/
def trimEndGitRevFuel : Nat → Str → Str
  | 0, w => w
  | fuel + 1, w =>
    if w.take 4 = ['t', 'i', 'g', '.'] then trimEndGitRevFuel fuel (w.drop 4)
    else w

/-- Model of Rust `str::trim_end_matches(".git")`: repeatedly strip the
trailing `.git`. -/
def trim_end_matches_git (w : Str) : Str :=
  (trimEndGitRevFuel w.length w.reverse).reverse

/-- Translation of `Repository::from_http_url` from `src/model/github.rs`:
parse the URL, require a known GitHub host and exactly two path segments, and
strip a trailing `.git` from the second segment. -/
def from_http_url (repo_url : Str) : Option Repository :=
  match urlParse repo_url with
  | none => none
  | some u =>
    if GITHUB_HOSTS.any (fun h => h == u.host) then
      match u.pathSegments with
      | [owner, name] => some ⟨owner, trim_end_matches_git name⟩
      | _ => none
    else none

/-- Literal `http` (mandatory part of the scheme in the HTTPS locator regex). -/
def httpLit : Str := ['h', 't', 't', 'p']

/-- Literal `s://` (the optional `s` of `https?` together with `://`). -/
def sSepLit : Str := ['s', ':', '/', '/']

/-- Literal `://`. -/
def sepLit : Str := [':', '/', '/']

/-- Literal `www.`. -/
def wwwLit : Str := ['w', 'w', 'w', '.']

/-- Literal `github.com/`. -/
def githubSlashLit : Str := ['g', 'i', 't', 'h', 'u', 'b', '.', 'c', 'o', 'm', '/']

/-- Literal `git@github.com:`. -/
def sshLit : Str :=
  ['g', 'i', 't', '@', 'g', 'i', 't', 'h', 'u', 'b', '.', 'c', 'o', 'm', ':']

/-- Literal `.git`. -/
def dotGitLit : Str := ['.', 'g', 'i', 't']

/-- Attempt of the `GITHUB_GIT_HTTPS_URL_RE` regex from `src/issues/producer.rs`
(`https?://(www\.)?github\.com/(?P<owner>\w+)/(?P<name>[^.]+)(\.git)?`) at one
start position: owner and name captures on success.  Backtracking is resolved
away: `\w+` and `[^.]+` are maximal because the character that must follow
each capture cannot itself belong to the capture's class. -/
def httpsTryAt (s : Str) : Option (Str × Str) :=
  match dropLit httpLit s with
  | none => none
  | some r0 =>
    match (dropLit sSepLit r0).orElse (fun _ => dropLit sepLit r0) with
    | none => none
    | some r1 =>
      match dropLit githubSlashLit
          (match dropLit wwwLit r1 with
           | some r => r
           | none => r1) with
      | none => none
      | some r3 =>
        if r3.takeWhile isWordChar = [] then none
        else
          match r3.drop (r3.takeWhile isWordChar).length with
          | '/' :: r5 =>
            if r5.takeWhile (fun c => !(c == '.')) = [] then none
            else some (r3.takeWhile isWordChar, r5.takeWhile (fun c => !(c == '.')))
          | _ => none

/-- Leftmost-match search of the HTTPS locator regex: try every start
position, left to right. -/
def httpsCapture : Str → Option (Str × Str)
  | [] => none
  | c :: rest => (httpsTryAt (c :: rest)).orElse (fun _ => httpsCapture rest)

/-- Attempt of the `GITHUB_GIT_SSH_URL_RE` regex from `src/issues/producer.rs`
(`git@github\.com:(?P<owner>\w+)/(?P<name>[^.]+)\.git`) at one start
position. -/
def sshTryAt (s : Str) : Option (Str × Str) :=
  match dropLit sshLit s with
  | none => none
  | some r0 =>
    if r0.takeWhile isWordChar = [] then none
    else
      match r0.drop (r0.takeWhile isWordChar).length with
      | '/' :: r2 =>
        if r2.takeWhile (fun c => !(c == '.')) = [] then none
        else
          match dropLit dotGitLit
              (r2.drop (r2.takeWhile (fun c => !(c == '.'))).length) with
          | none => none
          | some _ => some (r0.takeWhile isWordChar, r2.takeWhile (fun c => !(c == '.')))
      | _ => none

/-- Leftmost-match search of the SSH locator regex. -/
def sshCapture : Str → Option (Str × Str)
  | [] => none
  | c :: rest => (sshTryAt (c :: rest)).orElse (fun _ => sshCapture rest)

/-- Translation of the `CrateLocation::Git` arm of `repo_for_dependency` from
`src/issues/producer.rs`: match the HTTPS regex, fall back to the SSH regex,
and build the repository from the owner and name captures. -/
def repo_from_git_url (url : Str) : Option Repository :=
  match (httpsCapture url).orElse (fun _ => sshCapture url) with
  | some (o, n) => some ⟨o, n⟩
  | none => none

/-- Absence of a `:/` pair anywhere in the string (in particular no `://`). -/
def noColonSlash : Str → Bool
  | [] => true
  | [_] => true
  | a :: b :: rest => !(a == ':' && b == '/') && noColonSlash (b :: rest)

/-- Literal `https://`. -/
def httpsSchemeLit : Str := ['h', 't', 't', 'p', 's', ':', '/', '/']

/-- Literal `github.com`. -/
def githubHostLit : Str := ['g', 'i', 't', 'h', 'u', 'b', '.', 'c', 'o', 'm']

/-- Literal `www.github.com`. -/
def wwwGithubHostLit : Str :=
  ['w', 'w', 'w', '.', 'g', 'i', 't', 'h', 'u', 'b', '.', 'c', 'o', 'm']

/-- Repository-locator shape `https://github.com/OWNER/NAME`. -/
def githubHttpsUrl (o n : Str) : Str :=
  httpsSchemeLit ++ (githubHostLit ++ '/' :: (o ++ '/' :: n))

/-- Repository-locator shape `https://github.com/OWNER/NAME.git`. -/
def githubHttpsGitUrl (o n : Str) : Str :=
  httpsSchemeLit ++ (githubHostLit ++ '/' :: (o ++ '/' :: (n ++ dotGitLit)))

/-- Repository-locator shape `https://www.github.com/OWNER/NAME`. -/
def githubWwwUrl (o n : Str) : Str :=
  httpsSchemeLit ++ (wwwGithubHostLit ++ '/' :: (o ++ '/' :: n))

/-- Repository-locator shape `git@github.com:OWNER/NAME.git`. -/
def githubSshUrl (o n : Str) : Str :=
  sshLit ++ (o ++ '/' :: (n ++ dotGitLit))

/-- Translation of the repository-locator selection applied to package
metadata in `repo_for_dependency` (`src/issues/producer.rs`, crates.io branch
and filesystem branch): try the `repository` URL first, fall back to the
`homepage` URL. -/
def repo_from_metadata (repo_url homepage : Option Str) : Option Repository :=
  (repo_url.bind from_http_url).orElse (fun _ => homepage.bind from_http_url)

/-- Model of the hubcaps error cases distinguished by `pending_issues` in
`src/issues/github.rs`: an explicit rate-limit signal, an HTTP fault with a
status code, or any other transport error. -/
inductive HubError where
  | rateLimit (resetSecs : Nat)
  | fault (code : Nat) (message : Str)
  | other
deriving DecidableEq

/-- Translation of the `.then` closure of `pending_issues`
(`src/issues/github.rs`): a successful page item is passed through as
`some`, a rate-limit error and HTTP 422/403 faults end the stream quietly
(`none`), any other fault or error is re-raised. -/
def pending_step {α : Type} (res : Except HubError α) : Except HubError (Option α) :=
  match res with
  | .ok item => .ok (some item)
  | .error (.rateLimit _) => .ok none
  | .error (.fault code msg) =>
    if code = 422 then .ok none
    else if code = 403 then .ok none
    else .error (.fault code msg)
  | .error .other => .error .other

/-- Combination of the `.then` classification with the
`take_while(is_some).map(unwrap)` trick of `pending_issues`: run the stream
over a list of page results, returning the emitted items and the terminal
outcome (`none` = ended quietly, `some e` = ended with error `e`). -/
def pending_issues_run {α : Type} : List (Except HubError α) → List α × Option HubError
  | [] => ([], none)
  | r :: rest =>
    match pending_step r with
    | .ok (some item) =>
      (item :: (pending_issues_run rest).1, (pending_issues_run rest).2)
    | .ok none => ([], none)
    | .error e => ([], some e)

/-- Translation of the resolution-plus-deduplication loop of `suggest_issues`
(`src/issues/producer.rs`): walk the dependency list, resolve each dependency
to an optional repository, and keep a repository only if it is not in the
`repo_set` accumulated so far.  The returned list is the sequence of
repositories for which an issue-search stream is opened. -/
def resolvedReposAux {α : Type} (resolve : α → Option Repository) :
    List α → List Repository → List Repository
  | [], _ => []
  | d :: rest, seen =>
    match resolve d with
    | none => resolvedReposAux resolve rest seen
    | some r =>
      if r ∈ seen then resolvedReposAux resolve rest seen
      else r :: resolvedReposAux resolve rest (r :: seen)

/-- Repositories for which `suggest_issues` opens an issue-search stream:
the deduplication set starts empty at the beginning of the run. -/
def opened_streams {α : Type} (resolve : α → Option Repository)
    (deps : List α) : List Repository :=
  resolvedReposAux resolve deps []

/-- Model of the TOML values a dependency entry can be: a string, a table
(whose values are again TOML values), or any other value kind. -/
inductive Toml where
  | str (s : Str)
  | table (entries : List (Str × Toml))
  | other

/-- Model of `toml::Value::as_str`. -/
def as_str : Toml → Option Str
  | .str s => some s
  | _ => none

/-- Key `version`. -/
def versionKey : Str := ['v', 'e', 'r', 's', 'i', 'o', 'n']

/-- Key `path`. -/
def pathKey : Str := ['p', 'a', 't', 'h']

/-- Key `git`. -/
def gitKey : Str := ['g', 'i', 't']

/-- Translation of the attribute-collection phase of `Dependency::from_toml`
(`src/issues/cargo_toml.rs` / `src/model/manifest.rs`): a bare string becomes
a `version` attribute, a table contributes its string-valued entries, and any
other value is rejected. -/
def depAttrs : Toml → Option (List (Str × Str))
  | .str v => some [(versionKey, v)]
  | .table t => some (t.filterMap (fun p => (as_str p.2).map (fun s => (p.1, s))))
  | .other => none

/-- Lookup in the collected attribute map; a later binding of the same key
overrides an earlier one (`BTreeMap::extend` semantics). -/
def getAttr (attrs : List (Str × Str)) (k : Str) : Option Str :=
  ((attrs.filter (fun p => p.1 == k)).getLast?).map (fun p => p.2)

/-- Translation of `CrateLocation` from `src/issues/cargo_toml.rs`. -/
inductive CrateLocation where
  | registry (version : Str)
  | filesystem (path : Str)
  | git (url : Str)
deriving DecidableEq

/-- Translation of `Dependency` from `src/issues/cargo_toml.rs`. -/
structure Dependency where
  name : Str
  location : CrateLocation
deriving DecidableEq

/-- Error cases of `Dependency::from_toml`. -/
inductive TomlDeError where
  | notStringOrTable
  | ambiguousLocation
deriving DecidableEq

/-- Translation of `Dependency::from_toml`: collect string-valued attributes,
then require exactly one of `version`/`path`/`git`. -/
def from_toml (name : Str) (t : Toml) : Except TomlDeError Dependency :=
  match depAttrs t with
  | none => .error .notStringOrTable
  | some attrs =>
    match getAttr attrs versionKey, getAttr attrs pathKey, getAttr attrs gitKey with
    | some v, none, none => .ok ⟨name, .registry v⟩
    | none, some p, none => .ok ⟨name, .filesystem p⟩
    | none, none, some u => .ok ⟨name, .git u⟩
    | _, _, _ => .error .ambiguousLocation

/-- Modelled from the spec: a manifest entry "specifies" a location attribute
when it is a bare string (counting as `version`) or a table carrying that key
with a string value. -/
def specifiesAttr : Toml → Str → Bool
  | .str _, k => k == versionKey
  | .table es, k => es.any (fun p => p.1 == k && (as_str p.2).isSome)
  | .other, _ => false

/-- Exactly one of three booleans is set. -/
def exactlyOne (a b c : Bool) : Bool :=
  (a && !b && !c) || (!a && b && !c) || (!a && !b && c)

/-- Model of the fields of `hubcaps::search::IssuesItem` consumed by the
conversion in `src/model/github.rs`. -/
structure IssuesItem where
  number : Nat
  title : Str
  html_url : Str
  body : Option Str
  comments : Nat
  repository_url : Str

/-- Translation of the `Issue` struct from `src/model/github.rs`. -/
structure Issue where
  repo : Repository
  number : Nat
  url : Str
  title : Str
  body : Str
  comment_count : Nat
deriving DecidableEq

/-- Translation of the fixed `repo_tuple` from `src/model/github.rs`: parse
the repository URL (the source unwraps, modelled as `none` on failure) and
take the last two path segments, substituting the empty string when there are
fewer than two (or fewer than one). -/
def repo_tuple (item : IssuesItem) : Option (Str × Str) :=
  match urlParse item.repository_url with
  | none => none
  | some u =>
    some (if u.pathSegments.length > 1
            then u.pathSegments.getD (u.pathSegments.length - 2) []
            else [],
          if u.pathSegments.length > 0
            then u.pathSegments.getD (u.pathSegments.length - 1) []
            else [])

/-- Translation of `From<IssuesItem> for Issue` from `src/model/github.rs`. -/
def issue_from_issues_item (item : IssuesItem) : Option Issue :=
  match repo_tuple item with
  | none => none
  | some (o, p) =>
    some { repo := ⟨o, p⟩, number := item.number, url := item.html_url,
           title := item.title, body := item.body.getD [],
           comment_count := item.comments }

/-- Concrete search-result item for the C10 witness: no body, repository URL
`https://api.github.com/repos/a/b`. -/
def sampleIssuesItem : IssuesItem :=
  { number := 1, title := ['t'], html_url := ['u'], body := none, comments := 2,
    repository_url :=
      ['h', 't', 't', 'p', 's', ':', '/', '/', 'a', 'p', 'i', '.', 'g', 'i',
       't', 'h', 'u', 'b', '.', 'c', 'o', 'm', '/', 'r', 'e', 'p', 'o', 's',
       '/', 'a', '/', 'b'] }

/-- Issue produced from `sampleIssuesItem`. -/
def sampleIssue : Issue :=
  { repo := ⟨['a'], ['b']⟩, number := 1, url := ['u'], title := ['t'],
    body := [], comment_count := 2 }

/-- Model of `semver::Version` restricted to the numeric
`MAJOR.MINOR.PATCH` triple. -/
structure SemVersion where
  major : Nat
  minor : Nat
  patch : Nat
deriving DecidableEq

/-- Strict lexicographic order on versions (model of the `semver` ordering on
plain numeric versions). -/
def versionLt (a b : SemVersion) : Bool :=
  if a.major = b.major then
    (if a.minor = b.minor then decide (a.patch < b.patch)
     else decide (a.minor < b.minor))
  else decide (a.major < b.major)

/-- Parse a non-empty all-digit fragment as a number. -/
def parseNatDigits (w : Str) : Option Nat :=
  if w ≠ [] ∧ w.all isDigitC then
    some (w.foldl (fun acc c => 10 * acc + (c.toNat - 48)) 0)
  else none

/-- Model of `semver::Version::parse` restricted to plain numeric
`MAJOR.MINOR.PATCH` versions; anything else (including pre-release or build
suffixes) fails to parse. -/
def versionParse (w : Str) : Option SemVersion :=
  match splitOnP (fun c => c == '.') w with
  | [ma, mi, pa] =>
    match parseNatDigits ma, parseNatDigits mi, parseNatDigits pa with
    | some a, some b, some c => some ⟨a, b, c⟩
    | _, _, _ => none
  | _ => none

/-- Translation of the fields of `Package` (`src/model/manifest.rs`) consumed
by the resolver. -/
structure Package where
  name : Str
  version : Str
  repository : Option Str
  homepage : Option Str
deriving DecidableEq

/-- State of one globbed cache directory: its file name, whether its
`Cargo.toml` exists, and the package its manifest parses to (`none` models a
read or parse failure). -/
structure CacheEntry where
  dirName : Str
  manifestExists : Bool
  manifest : Option Package
deriving DecidableEq

/-- State of the local Cargo registry cache as `read_cached_manifest` sees
it: the optional cache root (`None` when no home directory is found) and the
glob matches for `{root}/*/{crate}-*`, in glob order. -/
structure CacheState where
  root : Option Str
  entries : List CacheEntry
deriving DecidableEq

/-- Translation of `dir.file_name() ... .rsplit('-').next()`: the suffix of
the directory name after its last dash (the whole name when it has none). -/
def version_suffix (dirName : Str) : Str :=
  (dirName.reverse.takeWhile (fun c => !(c == '-'))).reverse

/-- The panic raised by `read_cached_manifest` when a cache directory's
version suffix does not parse. -/
inductive CachePanic where
  | versionParseFailure (dirName : Str)
deriving DecidableEq

/-- Translation of the `filter_map` phase of `read_cached_manifest`
(`src/issues/producer.rs`): for each globbed directory, parse the version
suffix (panicking — modelled as `Except.error` — when it does not parse) and
keep the directories whose version satisfies the requirement. -/
def collectMatching (req : SemVersion → Bool) :
    List CacheEntry → Except CachePanic (List (SemVersion × CacheEntry))
  | [] => .ok []
  | e :: rest =>
    match versionParse (version_suffix e.dirName) with
    | none => .error (.versionParseFailure e.dirName)
    | some v =>
      match collectMatching req rest with
      | .error p => .error p
      | .ok tail => .ok (if req v then (v, e) :: tail else tail)

/-- Stable insertion into a version-sorted list: the element goes before the
first entry whose version is not smaller. -/
def insertByVersion (x : SemVersion × CacheEntry) :
    List (SemVersion × CacheEntry) → List (SemVersion × CacheEntry)
  | [] => [x]
  | y :: l => if versionLt y.1 x.1 then y :: insertByVersion x l else x :: y :: l

/-- Model of itertools' stable `sorted_by_key` on the version key, ascending. -/
def sortByVersion : List (SemVersion × CacheEntry) → List (SemVersion × CacheEntry)
  | [] => []
  | x :: l => insertByVersion x (sortByVersion l)

/-- Translation of `read_cached_manifest` from `src/issues/producer.rs`: with
no cache root the lookup is empty; otherwise glob the cached versions of the
crate, parse every version suffix (a failure panics), keep the satisfying
ones, sort ascending by version and take the first; a missing or unreadable
manifest in the selected directory degrades to an empty result. -/
def read_cached_manifest (st : CacheState) (req : SemVersion → Bool) :
    Except CachePanic (Option Package) :=
  match st.root with
  | none => .ok none
  | some _ =>
    match collectMatching req st.entries with
    | .error p => .error p
    | .ok pairs =>
      match (sortByVersion pairs).head? with
      | none => .ok none
      | some (_, e) =>
        if e.manifestExists then
          match e.manifest with
          | some p => .ok (some p)
          | none => .ok none
        else .ok none

instance {e a : Type} [DecidableEq e] [DecidableEq a] : DecidableEq (Except e a) :=
  fun x y =>
    match x, y with
    | .ok u, .ok v =>
      if h : u = v then .isTrue (congrArg Except.ok h)
      else .isFalse (fun he => h (Except.ok.inj he))
    | .error u, .error v =>
      if h : u = v then .isTrue (congrArg Except.error h)
      else .isFalse (fun he => h (Except.error.inj he))
    | .ok _, .error _ => .isFalse (fun he => Except.noConfusion he)
    | .error _, .ok _ => .isFalse (fun he => Except.noConfusion he)

/-- Manifest of the cached `foo-1.0.0`. -/
def fooPkg1 : Package :=
  { name := ['f', 'o', 'o'], version := ['1', '.', '0', '.', '0'],
    repository := some (githubHttpsUrl ['a'] ['f', 'o', 'o']), homepage := none }

/-- Manifest of the cached `foo-2.0.0`. -/
def fooPkg2 : Package :=
  { name := ['f', 'o', 'o'], version := ['2', '.', '0', '.', '0'],
    repository := some (githubHttpsUrl ['b'] ['f', 'o', 'o']), homepage := none }

/-- Cache holding two versions of `foo`, both satisfying any constraint and
both with readable manifests, in glob order. -/
def fooCacheState : CacheState :=
  { root := some ['r'],
    entries :=
      [{ dirName := ['f', 'o', 'o', '-', '1', '.', '0', '.', '0'],
         manifestExists := true, manifest := some fooPkg1 },
       { dirName := ['f', 'o', 'o', '-', '2', '.', '0', '.', '0'],
         manifestExists := true, manifest := some fooPkg2 }] }

theorem toNat_ofNatAux {n : Nat} (h : Nat.isValidChar n) :
    (Char.ofNatAux n h).toNat = n := rfl

theorem toNat_toLowercaseC (c : Char) :
    (toLowercaseC c).toNat =
      (if 65 ≤ c.toNat ∧ c.toNat ≤ 90 then c.toNat + 32 else c.toNat) := by
  unfold toLowercaseC
  split
  case isTrue h => simp [toNat_ofNatAux, h]
  case isFalse h => simp [h]

theorem isAlphanumericC_toLowercaseC {c : Char} (h : isAlphanumericC c = true) :
    isAlphanumericC (toLowercaseC c) = true := by
  simp only [isAlphanumericC, isUppercaseC, isLowercaseC, isDigitC,
    Bool.or_eq_true, Bool.and_eq_true, decide_eq_true_eq] at h ⊢
  have ht := toNat_toLowercaseC c
  by_cases hc : 65 ≤ c.toNat ∧ c.toNat ≤ 90 <;> simp [hc] at ht <;> omega

theorem isUppercaseC_toLowercaseC (c : Char) :
    isUppercaseC (toLowercaseC c) = false := by
  simp only [isUppercaseC, Bool.and_eq_false_iff, decide_eq_false_iff_not]
  have ht := toNat_toLowercaseC c
  by_cases hc : 65 ≤ c.toNat ∧ c.toNat ≤ 90 <;> simp [hc] at ht <;> omega

theorem toLowercaseC_of_not_upper {c : Char} (h : isUppercaseC c = false) :
    toLowercaseC c = c := by
  unfold toLowercaseC
  split
  case isTrue hc =>
    exact absurd h (by simp [isUppercaseC]; omega)
  case isFalse hc => rfl

theorem toLowercaseC_idem (c : Char) :
    toLowercaseC (toLowercaseC c) = toLowercaseC c :=
  toLowercaseC_of_not_upper (isUppercaseC_toLowercaseC c)

theorem not_whitespace_of_alphanumeric {c : Char} (h : isAlphanumericC c = true) :
    isWhitespaceC c = false := by
  simp only [isAlphanumericC, isUppercaseC, isLowercaseC, isDigitC,
    Bool.or_eq_true, Bool.and_eq_true, decide_eq_true_eq] at h
  simp only [isWhitespaceC, Bool.or_eq_false_iff, Bool.and_eq_false_iff,
    beq_eq_false_iff_ne, ne_eq, decide_eq_false_iff_not]
  omega

theorem splitOnP_ne_nil (p : Char → Bool) (s : Str) : splitOnP p s ≠ [] := by
  induction s with
  | nil => simp [splitOnP]
  | cons c rest ih =>
    simp only [splitOnP]
    split
    · simp
    · split
      · simp
      · simp

theorem splitOnP_eq_single {p : Char → Bool} {w : Str}
    (h : ∀ c ∈ w, p c = false) : splitOnP p w = [w] := by
  induction w with
  | nil => rfl
  | cons c rest ih =>
    have hc : p c = false := h c (by simp)
    have hrest : splitOnP p rest = [rest] := ih (fun d hd => h d (by simp [hd]))
    simp [splitOnP, hc, hrest]

theorem splitOnP_append_sep {p : Char → Bool} {w s : Str} {c₀ : Char}
    (h : ∀ c ∈ w, p c = false) (hc : p c₀ = true) :
    splitOnP p (w ++ c₀ :: s) = w :: splitOnP p s := by
  induction w with
  | nil => simp [splitOnP, hc]
  | cons a rest ih =>
    have ha : p a = false := h a (by simp)
    have hrest := ih (fun d hd => h d (by simp [hd]))
    show splitOnP p (a :: (rest ++ c₀ :: s)) = (a :: rest) :: splitOnP p s
    simp only [splitOnP, ha]
    rw [hrest]
    simp

theorem splitOnP_joinSpace {ts : List Str}
    (hne : ts ≠ [])
    (h : ∀ t ∈ ts, ∀ c ∈ t, isWhitespaceC c = false) :
    splitOnP isWhitespaceC (joinSpace ts) = ts := by
  induction ts with
  | nil => exact absurd rfl hne
  | cons t rest ih =>
    cases rest with
    | nil =>
      simp only [joinSpace]
      exact splitOnP_eq_single (h t (by simp))
    | cons t' rest' =>
      have hjoin : joinSpace (t :: t' :: rest') = t ++ ' ' :: joinSpace (t' :: rest') := rfl
      rw [hjoin, splitOnP_append_sep (h t (by simp)) (by decide)]
      rw [ih (by simp) (fun u hu c hcu => h u (by simp [hu]) c hcu)]

theorem canonicalize_label_eq (s : Str) :
    canonicalize_label s = joinSpace (processTokens (splitOnP isWhitespaceC s)) := rfl

theorem processTokens_chars {l : List Str} {t : Str} (ht : t ∈ processTokens l)
    {c : Char} (hc : c ∈ t) :
    isAlphanumericC c = true ∧ isUppercaseC c = false := by
  simp only [processTokens, List.mem_map] at ht
  obtain ⟨w, _, rfl⟩ := ht
  simp only [List.mem_map] at hc
  obtain ⟨d, hd, rfl⟩ := hc
  have hmem : w ∈ (l.map trimStr).map (fun w => w.filter isAlphanumericC) := by
    exact List.mem_of_mem_filter (by assumption)
  simp only [List.mem_map] at hmem
  obtain ⟨v, _, rfl⟩ := hmem
  have hdal : isAlphanumericC d = true := List.of_mem_filter hd
  exact ⟨isAlphanumericC_toLowercaseC hdal, isUppercaseC_toLowercaseC d⟩

theorem dropWhile_eq_self_of_none {p : Char → Bool} {l : Str}
    (h : ∀ c ∈ l, p c = false) : l.dropWhile p = l := by
  cases l with
  | nil => rfl
  | cons a rest => simp [List.dropWhile, h a (by simp)]

theorem trimStr_eq_self {w : Str} (h : ∀ c ∈ w, isWhitespaceC c = false) :
    trimStr w = w := by
  unfold trimStr
  rw [dropWhile_eq_self_of_none h,
      dropWhile_eq_self_of_none (fun c hc => h c (List.mem_reverse.mp hc)),
      List.reverse_reverse]

theorem processTokens_of_clean {l : List Str}
    (h : ∀ t ∈ l, ∀ c ∈ t, isAlphanumericC c = true ∧ isUppercaseC c = false) :
    processTokens l = l := by
  induction l with
  | nil => rfl
  | cons t rest ih =>
    have hch := h t (by simp)
    have hws : ∀ c ∈ t, isWhitespaceC c = false :=
      fun c hc => not_whitespace_of_alphanumeric (hch c hc).1
    have htrim : trimStr t = t := trimStr_eq_self hws
    have hfilter : t.filter isAlphanumericC = t :=
      List.filter_eq_self.mpr (fun c hc => (hch c hc).1)
    have hkeep : (!(t.length == 1 && t.all isUppercaseC)) = true := by
      cases t with
      | nil => simp
      | cons c rest' =>
        cases rest' with
        | nil => simp [(hch c (by simp)).2]
        | cons c' rest'' => simp
    have hlower : t.map toLowercaseC = t := by
      have : ∀ c ∈ t, toLowercaseC c = id c :=
        fun c hc => toLowercaseC_of_not_upper (hch c hc).2
      rw [List.map_congr_left this, List.map_id]
    have hrest : processTokens rest = rest :=
      ih (fun u hu c hc => h u (by simp [hu]) c hc)
    show ((((t :: rest).map trimStr).map (fun w => w.filter isAlphanumericC)).filter
          (fun w => !(w.length == 1 && w.all isUppercaseC))).map
        (fun w => w.map toLowercaseC) = t :: rest
    rw [List.map_cons, htrim, List.map_cons, hfilter, List.filter_cons]
    simp only [hkeep]
    rw [if_pos trivial, List.map_cons, hlower]
    exact congrArg (fun l => t :: l) hrest

theorem canonicalize_label_idem (s : Str) :
    canonicalize_label (canonicalize_label s) = canonicalize_label s := by
  rw [canonicalize_label_eq s]
  have hclean : ∀ t ∈ processTokens (splitOnP isWhitespaceC s), ∀ c ∈ t,
      isAlphanumericC c = true ∧ isUppercaseC c = false :=
    fun t ht c hc => processTokens_chars ht hc
  cases hempty : processTokens (splitOnP isWhitespaceC s) with
  | nil => decide
  | cons t rest =>
    rw [hempty] at hclean
    rw [canonicalize_label_eq]
    rw [@splitOnP_joinSpace (t :: rest) (by simp)
        (fun t' ht' c hc => not_whitespace_of_alphanumeric (hclean t' ht' c hc).1)]
    rw [processTokens_of_clean hclean]

/-- C5 counterexample: on a label with two consecutive spaces, the code keeps
the empty fragment produced between them and rejoins it, yielding two spaces,
while the specified algorithm (split into whitespace-separated words, rejoin
with single spaces) yields one. -/
theorem c5_counterexample :
    canonicalize_label ['a', ' ', ' ', 'b'] = ['a', ' ', ' ', 'b'] ∧
    canonicalize_label_spec ['a', ' ', ' ', 'b'] = ['a', ' ', 'b'] ∧
    canonicalize_label ['a', ' ', ' ', 'b'] ≠ canonicalize_label_spec ['a', ' ', ' ', 'b'] := by
  decide

/-- C5 (amended): for every label string whose whitespace split produces no
empty fragment (no leading, trailing, or consecutive whitespace), the canonical
form equals the spec's algorithm; in general the code keeps the empty fragments
produced by consecutive whitespace. -/
theorem c5_canonicalize_label_follows_spec (s : Str)
    (h : [] ∉ splitOnP isWhitespaceC s) :
    canonicalize_label s = canonicalize_label_spec s := by
  have hfil : (splitOnP isWhitespaceC s).filter (fun w => !List.isEmpty w)
      = splitOnP isWhitespaceC s :=
    List.filter_eq_self.mpr (fun w hw => by
      have hne : w ≠ [] := fun he => h (he ▸ hw)
      simp [hne])
  unfold canonicalize_label canonicalize_label_spec
  rw [hfil]

/-- C5 witness: a concrete single-spaced label where the hypothesis holds. -/
theorem c5_canonicalize_label_follows_spec_witness :
    ([] ∉ splitOnP isWhitespaceC ['a', ' ', 'B', 'u', 'g']) ∧
    canonicalize_label ['a', ' ', 'B', 'u', 'g'] =
      canonicalize_label_spec ['a', ' ', 'B', 'u', 'g'] :=
  ⟨by decide, c5_canonicalize_label_follows_spec ['a', ' ', 'B', 'u', 'g'] (by decide)⟩

/-- C6: label canonicalization is idempotent, and every entry of the built-in
allow-list is a fixed point of canonicalization. -/
theorem c6_canonicalize_label_idempotent_and_labels_canonical :
    (∀ s : Str, canonicalize_label (canonicalize_label s) = canonicalize_label s) ∧
    ISSUE_LABELS.all (fun l => canonicalize_label l == l) = true :=
  ⟨canonicalize_label_idem, by decide⟩

theorem dropLit_eq_some {lit s r : Str} (h : dropLit lit s = some r) :
    s = lit ++ r := by
  induction lit generalizing s with
  | nil => simp [dropLit] at h; simp [h]
  | cons l ls ih =>
    cases s with
    | nil => simp [dropLit] at h
    | cons c cs =>
      simp only [dropLit] at h
      split at h
      case isTrue heq =>
        have : l = c := by simpa using heq
        rw [this, List.cons_append]
        exact congrArg (c :: ·) (ih h)
      case isFalse heq => exact absurd h (by simp)

theorem dropLit_append (lit s : Str) : dropLit lit (lit ++ s) = some s := by
  induction lit with
  | nil => rfl
  | cons l ls ih => simp [dropLit, ih]

theorem takeWhile_append_all {p : Char → Bool} {w : Str} (s : Str)
    (h : ∀ c ∈ w, p c = true) : (w ++ s).takeWhile p = w ++ s.takeWhile p := by
  induction w with
  | nil => simp
  | cons a rest ih =>
    simp only [List.cons_append, List.takeWhile_cons, h a (by simp)]
    rw [ih (fun c hc => h c (by simp [hc]))]
    simp

theorem takeWhile_all {p : Char → Bool} {w : Str}
    (h : ∀ c ∈ w, p c = true) : w.takeWhile p = w := by
  have := takeWhile_append_all (p := p) [] h
  simpa using this

theorem takeWhile_span {p : Char → Bool} {w s : Str} {c₀ : Char}
    (h : ∀ c ∈ w, p c = true) (hc : p c₀ = false) :
    (w ++ c₀ :: s).takeWhile p = w := by
  rw [takeWhile_append_all _ h]
  simp [List.takeWhile_cons, hc]

theorem isWordChar_ne (c : Char) (h : isWordChar c = true) (d : Char)
    (hd : isWordChar d = false) : (c == d) = false := by
  rw [beq_eq_false_iff_ne]
  rintro rfl
  rw [h] at hd
  exact Bool.noConfusion hd

theorem trimEndGitRevFuel_no_dot {w : Str} (h : ∀ c ∈ w, (c == '.') = false) :
    ∀ fuel, trimEndGitRevFuel fuel w = w := by
  intro fuel
  cases fuel with
  | zero => rfl
  | succ f =>
    simp only [trimEndGitRevFuel]
    rw [if_neg]
    intro he
    have hmem : '.' ∈ w.take 4 := by rw [he]; decide
    have := h '.' (List.take_subset 4 w hmem)
    simp at this

theorem trim_end_matches_git_no_dot {w : Str}
    (h : ∀ c ∈ w, (c == '.') = false) : trim_end_matches_git w = w := by
  unfold trim_end_matches_git
  rw [trimEndGitRevFuel_no_dot (fun c hc => h c (List.mem_reverse.mp hc)) _,
      List.reverse_reverse]

theorem trim_end_matches_git_dotgit {n : Str}
    (h : ∀ c ∈ n, (c == '.') = false) :
    trim_end_matches_git (n ++ dotGitLit) = n := by
  unfold trim_end_matches_git
  have hrev : (n ++ dotGitLit).reverse = 't' :: 'i' :: 'g' :: '.' :: n.reverse := by
    simp [dotGitLit]
  have hlen : (n ++ dotGitLit).length = n.length + 3 + 1 := by simp [dotGitLit]
  have hstep : ∀ (f : Nat) (w : Str), trimEndGitRevFuel (f + 1) w
      = if w.take 4 = ['t', 'i', 'g', '.'] then trimEndGitRevFuel f (w.drop 4)
        else w := fun f w => rfl
  rw [hrev, hlen, hstep]
  rw [if_pos (by simp [List.take])]
  rw [show ('t' :: 'i' :: 'g' :: '.' :: n.reverse).drop 4 = n.reverse from rfl]
  rw [trimEndGitRevFuel_no_dot (fun c hc => h c (List.mem_reverse.mp hc)) _,
      List.reverse_reverse]

theorem noColonSlash_append_false (xs ys : Str) :
    noColonSlash (xs ++ ':' :: '/' :: ys) = false := by
  induction xs with
  | nil => simp [noColonSlash]
  | cons a xs ih =>
    cases xs with
    | nil => simp [noColonSlash]
    | cons x xs' =>
      simp only [noColonSlash, List.cons_append, Bool.and_eq_false_iff]
      right
      simpa using ih

theorem noColonSlash_tail {c : Char} {rest : Str}
    (h : noColonSlash (c :: rest) = true) : noColonSlash rest = true := by
  cases rest with
  | nil => rfl
  | cons b r =>
    simp only [noColonSlash, Bool.and_eq_true] at h
    exact h.2

theorem noColonSlash_of_notColon {s : Str}
    (h : ∀ c ∈ s, (c == ':') = false) : noColonSlash s = true := by
  induction s with
  | nil => rfl
  | cons a rest ih =>
    cases rest with
    | nil => rfl
    | cons b r =>
      have ha := h a (by simp)
      have hr : noColonSlash (b :: r) = true := ih (fun c hc => h c (by simp [hc]))
      simp [noColonSlash, ha, hr]

theorem httpsTryAt_none {s : Str} (h : noColonSlash s = true) :
    httpsTryAt s = none := by
  unfold httpsTryAt
  cases hd : dropLit httpLit s with
  | none => rfl
  | some r0 =>
    have hs0 : s = httpLit ++ r0 := dropLit_eq_some hd
    cases h1 : dropLit sSepLit r0 with
    | some r1 =>
      exfalso
      have hr : r0 = sSepLit ++ r1 := dropLit_eq_some h1
      rw [hs0, hr,
          show httpLit ++ (sSepLit ++ r1)
              = (httpLit ++ ['s']) ++ ':' :: '/' :: ('/' :: r1) from by
            simp [httpLit, sSepLit],
          noColonSlash_append_false] at h
      exact Bool.noConfusion h
    | none =>
      cases h2 : dropLit sepLit r0 with
      | some r1 =>
        exfalso
        have hr : r0 = sepLit ++ r1 := dropLit_eq_some h2
        rw [hs0, hr,
            show httpLit ++ (sepLit ++ r1)
                = httpLit ++ ':' :: '/' :: ('/' :: r1) from by simp [sepLit],
            noColonSlash_append_false] at h
        exact Bool.noConfusion h
      | none => simp [h1, h2]

theorem httpsCapture_none {s : Str} (h : noColonSlash s = true) :
    httpsCapture s = none := by
  induction s with
  | nil => rfl
  | cons c rest ih =>
    show (httpsTryAt (c :: rest)).orElse (fun _ => httpsCapture rest) = none
    rw [httpsTryAt_none h, ih (noColonSlash_tail h)]
    rfl

theorem urlParse_https_scaffold (host tail : Str)
    (hhost : ∀ c ∈ host, notSegSep c = true ∧ notColon c = true ∧ (c == '@') = false)
    (hne : host ≠ [])
    (htail : ∀ c ∈ tail, notQuery c = true) :
    urlParse (['h', 't', 't', 'p', 's', ':', '/', '/'] ++ (host ++ '/' :: tail))
      = some ⟨['h', 't', 't', 'p', 's'], host.map toLowercaseC,
          splitOnP (fun c => c == '/') tail⟩ := by
  have hfull : (['h', 't', 't', 'p', 's', ':', '/', '/'] : Str) ++ (host ++ '/' :: tail)
      = (['h', 't', 't', 'p', 's'] : Str) ++ ':' :: '/' :: '/' :: (host ++ '/' :: tail) := by
    simp
  have hscheme : ((['h', 't', 't', 'p', 's'] : Str)
        ++ ':' :: '/' :: '/' :: (host ++ '/' :: tail)).takeWhile notColon
      = ['h', 't', 't', 'p', 's'] :=
    takeWhile_span (by decide) (by decide)
  have hauth : (host ++ '/' :: tail).takeWhile notSegSep = host :=
    takeWhile_span (fun c hc => (hhost c hc).1) (by decide)
  have hhostOf : hostOfAuthority host = host.map toLowercaseC := by
    unfold hostOfAuthority
    have h1 : host.reverse.takeWhile (fun c => !(c == '@')) = host.reverse :=
      takeWhile_all (fun c hc => by
        simp [(hhost c (List.mem_reverse.mp hc)).2.2])
    rw [h1, List.reverse_reverse, takeWhile_all (fun c hc => (hhost c hc).2.1)]
  have hpath : ('/' :: tail).takeWhile notQuery = '/' :: tail := by
    rw [List.takeWhile_cons, if_pos (by decide), takeWhile_all htail]
  rw [hfull]
  unfold urlParse
  rw [hscheme, List.drop_left]
  rw [show dropLit [':', '/', '/'] (':' :: '/' :: '/' :: (host ++ '/' :: tail))
      = some (host ++ '/' :: tail) from by simp [dropLit]]
  rw [show (some (host ++ '/' :: tail) : Option Str) = some (host ++ '/' :: tail) from rfl]
  simp only []
  rw [if_pos (show (['h', 't', 't', 'p', 's'] : Str) ≠ []
      ∧ (['h', 't', 't', 'p', 's'] : Str).all isSchemeChar = true from by decide)]
  rw [hauth, if_neg hne, List.drop_left, hpath]
  rw [hhostOf]
  rfl

theorem isWordChar_notQuery {c : Char} (h : isWordChar c = true) :
    notQuery c = true := by
  simp [notQuery, isWordChar_ne c h '?' (by decide), isWordChar_ne c h '#' (by decide)]

theorem isWordChar_notDot {c : Char} (h : isWordChar c = true) :
    (!(c == '.')) = true := by
  simp [isWordChar_ne c h '.' (by decide)]

theorem from_http_url_plain {o n : Str}
    (ho2 : ∀ c ∈ o, isWordChar c = true)
    (hn2 : ∀ c ∈ n, isWordChar c = true) :
    from_http_url (githubHttpsUrl o n) = some ⟨o, n⟩ := by
  have htail : ∀ c ∈ o ++ '/' :: n, notQuery c = true := by
    intro c hc
    rcases List.mem_append.mp hc with h | h
    · exact isWordChar_notQuery (ho2 c h)
    · rcases List.mem_cons.mp h with rfl | h2
      · decide
      · exact isWordChar_notQuery (hn2 c h2)
  have hurl := urlParse_https_scaffold githubHostLit (o ++ '/' :: n)
    (by decide) (by decide) htail
  have hsplit : splitOnP (fun c => c == '/') (o ++ '/' :: n) = [o, n] := by
    rw [splitOnP_append_sep (fun c hc => isWordChar_ne c (ho2 c hc) '/' (by decide))
        (by decide),
        splitOnP_eq_single (fun c hc => isWordChar_ne c (hn2 c hc) '/' (by decide))]
  unfold from_http_url
  rw [show githubHttpsUrl o n
      = ['h', 't', 't', 'p', 's', ':', '/', '/'] ++ (githubHostLit ++ '/' :: (o ++ '/' :: n))
      from rfl]
  rw [hurl, hsplit]
  rw [show githubHostLit.map toLowercaseC = githubHostLit from by decide]
  simp only []
  rw [if_pos (show (GITHUB_HOSTS.any fun h => h == githubHostLit) = true from by decide)]
  rw [trim_end_matches_git_no_dot (fun c hc => isWordChar_ne c (hn2 c hc) '.' (by decide))]

theorem mem_dotGitLit_word {c : Char} (h : c ∈ dotGitLit) :
    notQuery c = true ∧ (c == '/') = false ∧ (c == ':') = false := by
  simp [dotGitLit] at h
  rcases h with rfl | rfl | rfl | rfl <;> exact ⟨by decide, by decide, by decide⟩

theorem from_http_url_dotgit {o n : Str}
    (ho2 : ∀ c ∈ o, isWordChar c = true)
    (hn2 : ∀ c ∈ n, isWordChar c = true) :
    from_http_url (githubHttpsGitUrl o n) = some ⟨o, n⟩ := by
  have htail : ∀ c ∈ o ++ '/' :: (n ++ dotGitLit), notQuery c = true := by
    intro c hc
    rcases List.mem_append.mp hc with h | h
    · exact isWordChar_notQuery (ho2 c h)
    · rcases List.mem_cons.mp h with rfl | h2
      · decide
      · rcases List.mem_append.mp h2 with h3 | h3
        · exact isWordChar_notQuery (hn2 c h3)
        · exact (mem_dotGitLit_word h3).1
  have hurl := urlParse_https_scaffold githubHostLit (o ++ '/' :: (n ++ dotGitLit))
    (by decide) (by decide) htail
  have hsplit : splitOnP (fun c => c == '/') (o ++ '/' :: (n ++ dotGitLit))
      = [o, n ++ dotGitLit] := by
    rw [splitOnP_append_sep (fun c hc => isWordChar_ne c (ho2 c hc) '/' (by decide))
        (by decide),
        splitOnP_eq_single (fun c hc => by
          rcases List.mem_append.mp hc with h | h
          · exact isWordChar_ne c (hn2 c h) '/' (by decide)
          · exact (mem_dotGitLit_word h).2.1)]
  unfold from_http_url
  rw [show githubHttpsGitUrl o n
      = ['h', 't', 't', 'p', 's', ':', '/', '/']
        ++ (githubHostLit ++ '/' :: (o ++ '/' :: (n ++ dotGitLit)))
      from rfl]
  rw [hurl, hsplit]
  rw [show githubHostLit.map toLowercaseC = githubHostLit from by decide]
  simp only []
  rw [if_pos (show (GITHUB_HOSTS.any fun h => h == githubHostLit) = true from by decide)]
  rw [trim_end_matches_git_dotgit (fun c hc => isWordChar_ne c (hn2 c hc) '.' (by decide))]

theorem from_http_url_www {o n : Str}
    (ho2 : ∀ c ∈ o, isWordChar c = true)
    (hn2 : ∀ c ∈ n, isWordChar c = true) :
    from_http_url (githubWwwUrl o n) = some ⟨o, n⟩ := by
  have htail : ∀ c ∈ o ++ '/' :: n, notQuery c = true := by
    intro c hc
    rcases List.mem_append.mp hc with h | h
    · exact isWordChar_notQuery (ho2 c h)
    · rcases List.mem_cons.mp h with rfl | h2
      · decide
      · exact isWordChar_notQuery (hn2 c h2)
  have hurl := urlParse_https_scaffold wwwGithubHostLit (o ++ '/' :: n)
    (by decide) (by decide) htail
  have hsplit : splitOnP (fun c => c == '/') (o ++ '/' :: n) = [o, n] := by
    rw [splitOnP_append_sep (fun c hc => isWordChar_ne c (ho2 c hc) '/' (by decide))
        (by decide),
        splitOnP_eq_single (fun c hc => isWordChar_ne c (hn2 c hc) '/' (by decide))]
  unfold from_http_url
  rw [show githubWwwUrl o n
      = ['h', 't', 't', 'p', 's', ':', '/', '/'] ++ (wwwGithubHostLit ++ '/' :: (o ++ '/' :: n))
      from rfl]
  rw [hurl, hsplit]
  rw [show wwwGithubHostLit.map toLowercaseC = wwwGithubHostLit from by decide]
  simp only []
  rw [if_pos (show (GITHUB_HOSTS.any fun h => h == wwwGithubHostLit) = true from by decide)]
  rw [trim_end_matches_git_no_dot (fun c hc => isWordChar_ne c (hn2 c hc) '.' (by decide))]

theorem sshTryAt_scaffold {o n : Str}
    (ho1 : o ≠ []) (ho2 : ∀ c ∈ o, isWordChar c = true)
    (hn1 : n ≠ []) (hn2 : ∀ c ∈ n, isWordChar c = true) :
    sshTryAt (sshLit ++ (o ++ '/' :: (n ++ dotGitLit))) = some (o, n) := by
  have howner : (o ++ '/' :: (n ++ dotGitLit)).takeWhile isWordChar = o :=
    takeWhile_span ho2 (by decide)
  have hname : (n ++ dotGitLit).takeWhile (fun c => !(c == '.')) = n := by
    rw [show n ++ dotGitLit = n ++ '.' :: ['g', 'i', 't'] from rfl]
    exact takeWhile_span (fun c hc => isWordChar_notDot (hn2 c hc)) (by decide)
  unfold sshTryAt
  rw [dropLit_append]
  simp only []
  rw [howner, if_neg ho1, List.drop_left]
  simp only []
  rw [hname, if_neg hn1, List.drop_left,
      show dropLit dotGitLit dotGitLit = some [] from rfl]

theorem sshCapture_scaffold {o n : Str}
    (ho1 : o ≠ []) (ho2 : ∀ c ∈ o, isWordChar c = true)
    (hn1 : n ≠ []) (hn2 : ∀ c ∈ n, isWordChar c = true) :
    sshCapture (sshLit ++ (o ++ '/' :: (n ++ dotGitLit))) = some (o, n) := by
  have h := sshTryAt_scaffold ho1 ho2 hn1 hn2
  rw [show sshCapture (sshLit ++ (o ++ '/' :: (n ++ dotGitLit)))
      = (sshTryAt (sshLit ++ (o ++ '/' :: (n ++ dotGitLit)))).orElse
          (fun _ => sshCapture
            (['i', 't', '@', 'g', 'i', 't', 'h', 'u', 'b', '.', 'c', 'o', 'm', ':']
              ++ (o ++ '/' :: (n ++ dotGitLit)))) from rfl,
      h]
  rfl

theorem noColonSlash_sshUrl {o n : Str}
    (ho1 : o ≠ []) (ho2 : ∀ c ∈ o, isWordChar c = true)
    (hn2 : ∀ c ∈ n, isWordChar c = true) :
    noColonSlash (sshLit ++ (o ++ '/' :: (n ++ dotGitLit))) = true := by
  obtain ⟨c₀, o', rfl⟩ : ∃ c₀ o', o = c₀ :: o' := by
    cases o with
    | nil => exact absurd rfl ho1
    | cons c₀ o' => exact ⟨c₀, o', rfl⟩
  have hc0 : (c₀ == '/') = false := isWordChar_ne c₀ (ho2 c₀ (by simp)) '/' (by decide)
  have hrest : noColonSlash (c₀ :: (o' ++ '/' :: (n ++ dotGitLit))) = true := by
    apply noColonSlash_of_notColon
    intro c hc
    rcases List.mem_cons.mp hc with rfl | hc'
    · exact isWordChar_ne c (ho2 c (by simp)) ':' (by decide)
    · rcases List.mem_append.mp hc' with h | h
      · exact isWordChar_ne c (ho2 c (by simp [h])) ':' (by decide)
      · rcases List.mem_cons.mp h with rfl | h2
        · decide
        · rcases List.mem_append.mp h2 with h3 | h3
          · exact isWordChar_ne c (hn2 c h3) ':' (by decide)
          · exact (mem_dotGitLit_word h3).2.2
  show noColonSlash
      ('g' :: 'i' :: 't' :: '@' :: 'g' :: 'i' :: 't' :: 'h' :: 'u' :: 'b' :: '.'
        :: 'c' :: 'o' :: 'm' :: ':' :: c₀ :: (o' ++ '/' :: (n ++ dotGitLit))) = true
  simp [noColonSlash, hc0, hrest]

theorem repo_from_git_url_ssh {o n : Str}
    (ho1 : o ≠ []) (ho2 : ∀ c ∈ o, isWordChar c = true)
    (hn1 : n ≠ []) (hn2 : ∀ c ∈ n, isWordChar c = true) :
    repo_from_git_url (githubSshUrl o n) = some ⟨o, n⟩ := by
  unfold repo_from_git_url githubSshUrl
  rw [httpsCapture_none (noColonSlash_sshUrl ho1 ho2 hn2),
      sshCapture_scaffold ho1 ho2 hn1 hn2]
  rfl

theorem httpsTryAt_gitUrl {o n : Str}
    (ho1 : o ≠ []) (ho2 : ∀ c ∈ o, isWordChar c = true)
    (hn1 : n ≠ []) (hn2 : ∀ c ∈ n, isWordChar c = true) :
    httpsTryAt (githubHttpsGitUrl o n) = some (o, n) := by
  have howner : (o ++ '/' :: (n ++ dotGitLit)).takeWhile isWordChar = o :=
    takeWhile_span ho2 (by decide)
  have hname : (n ++ dotGitLit).takeWhile (fun c => !(c == '.')) = n := by
    rw [show n ++ dotGitLit = n ++ '.' :: ['g', 'i', 't'] from rfl]
    exact takeWhile_span (fun c hc => isWordChar_notDot (hn2 c hc)) (by decide)
  unfold httpsTryAt githubHttpsGitUrl
  rw [show httpsSchemeLit ++ (githubHostLit ++ '/' :: (o ++ '/' :: (n ++ dotGitLit)))
      = httpLit ++ (sSepLit ++ (githubSlashLit ++ (o ++ '/' :: (n ++ dotGitLit))))
      from by simp [httpsSchemeLit, httpLit, sSepLit, githubSlashLit, githubHostLit]]
  rw [dropLit_append]
  simp only []
  rw [dropLit_append]
  simp only [Option.orElse]
  rw [show dropLit wwwLit (githubSlashLit ++ (o ++ '/' :: (n ++ dotGitLit))) = none
      from rfl]
  simp only []
  rw [dropLit_append]
  simp only []
  rw [howner, if_neg ho1, List.drop_left]
  simp only []
  rw [hname, if_neg hn1]

theorem httpsCapture_gitUrl {o n : Str}
    (ho1 : o ≠ []) (ho2 : ∀ c ∈ o, isWordChar c = true)
    (hn1 : n ≠ []) (hn2 : ∀ c ∈ n, isWordChar c = true) :
    httpsCapture (githubHttpsGitUrl o n) = some (o, n) := by
  have h := httpsTryAt_gitUrl ho1 ho2 hn1 hn2
  rw [show httpsCapture (githubHttpsGitUrl o n)
      = (httpsTryAt (githubHttpsGitUrl o n)).orElse
          (fun _ => httpsCapture
            (['t', 't', 'p', 's', ':', '/', '/']
              ++ (githubHostLit ++ '/' :: (o ++ '/' :: (n ++ dotGitLit))))) from rfl,
      h]
  rfl

theorem repo_from_git_url_git {o n : Str}
    (ho1 : o ≠ []) (ho2 : ∀ c ∈ o, isWordChar c = true)
    (hn1 : n ≠ []) (hn2 : ∀ c ∈ n, isWordChar c = true) :
    repo_from_git_url (githubHttpsGitUrl o n) = some ⟨o, n⟩ := by
  unfold repo_from_git_url
  rw [httpsCapture_gitUrl ho1 ho2 hn1 hn2]
  rfl

theorem from_http_url_non_github {url : Str} {u : ParsedUrl}
    (hu : urlParse url = some u) (hhost : u.host ∉ GITHUB_HOSTS) :
    from_http_url url = none := by
  unfold from_http_url
  rw [hu]
  simp only []
  rw [if_neg]
  intro hany
  rcases List.any_eq_true.mp hany with ⟨x, hx, hbeq⟩
  exact hhost (by rw [← show x = u.host from by simpa using hbeq]; exact hx)

/-- C4 counterexample: the claim quantifies over every owner and name string,
but for NAME = `x.git` the first HTTPS shape parses to name `x` (the parser
strips the trailing `.git` from the second path segment), not to `x.git`. -/
theorem c4_counterexample :
    from_http_url (githubHttpsUrl ['X', 'i', 'o', 'n'] ['x', '.', 'g', 'i', 't'])
      = some ⟨['X', 'i', 'o', 'n'], ['x']⟩ ∧
    some (⟨['X', 'i', 'o', 'n'], ['x']⟩ : Repository)
      ≠ some ⟨['X', 'i', 'o', 'n'], ['x', '.', 'g', 'i', 't']⟩ := by
  decide

/-- C4 (amended): for every owner and name made of one or more word characters
(ASCII letters, digits, underscore), the four accepted locator shapes parse to
the repository identity `{owner, name}` — the three HTTPS shapes through the
URL-based parser, the `.git` and SSH shapes also through the regex chain used
for git dependencies — and the URL-based parser yields no match for every URL
whose host is not a known GitHub domain. -/
theorem c4_repository_locator_shapes (o n : Str)
    (ho1 : o ≠ []) (ho2 : ∀ c ∈ o, isWordChar c = true)
    (hn1 : n ≠ []) (hn2 : ∀ c ∈ n, isWordChar c = true) :
    from_http_url (githubHttpsUrl o n) = some ⟨o, n⟩ ∧
    from_http_url (githubHttpsGitUrl o n) = some ⟨o, n⟩ ∧
    from_http_url (githubWwwUrl o n) = some ⟨o, n⟩ ∧
    repo_from_git_url (githubHttpsGitUrl o n) = some ⟨o, n⟩ ∧
    repo_from_git_url (githubSshUrl o n) = some ⟨o, n⟩ ∧
    (∀ url u, urlParse url = some u → u.host ∉ GITHUB_HOSTS →
      from_http_url url = none) :=
  ⟨from_http_url_plain ho2 hn2,
   from_http_url_dotgit ho2 hn2,
   from_http_url_www ho2 hn2,
   repo_from_git_url_git ho1 ho2 hn1 hn2,
   repo_from_git_url_ssh ho1 ho2 hn1 hn2,
   fun _ _ hu hh => from_http_url_non_github hu hh⟩

/-- C4 witness: the amended statement instantiated at owner `Xion`,
name `gisht`. -/
theorem c4_repository_locator_shapes_witness :
    from_http_url (githubHttpsUrl ['X', 'i', 'o', 'n'] ['g', 'i', 's', 'h', 't'])
      = some ⟨['X', 'i', 'o', 'n'], ['g', 'i', 's', 'h', 't']⟩ ∧
    from_http_url (githubHttpsGitUrl ['X', 'i', 'o', 'n'] ['g', 'i', 's', 'h', 't'])
      = some ⟨['X', 'i', 'o', 'n'], ['g', 'i', 's', 'h', 't']⟩ ∧
    from_http_url (githubWwwUrl ['X', 'i', 'o', 'n'] ['g', 'i', 's', 'h', 't'])
      = some ⟨['X', 'i', 'o', 'n'], ['g', 'i', 's', 'h', 't']⟩ ∧
    repo_from_git_url (githubHttpsGitUrl ['X', 'i', 'o', 'n'] ['g', 'i', 's', 'h', 't'])
      = some ⟨['X', 'i', 'o', 'n'], ['g', 'i', 's', 'h', 't']⟩ ∧
    repo_from_git_url (githubSshUrl ['X', 'i', 'o', 'n'] ['g', 'i', 's', 'h', 't'])
      = some ⟨['X', 'i', 'o', 'n'], ['g', 'i', 's', 'h', 't']⟩ ∧
    (∀ url u, urlParse url = some u → u.host ∉ GITHUB_HOSTS →
      from_http_url url = none) :=
  c4_repository_locator_shapes ['X', 'i', 'o', 'n'] ['g', 'i', 's', 'h', 't']
    (by decide) (by decide) (by decide) (by decide)

/-- C7: when both metadata URLs are present and both parse as repository
locators, the identity from the `repository` field is returned; the
`homepage` field decides only when the `repository` field is absent or does
not parse. -/
theorem c7_repository_field_precedence (ru hu : Str) (r h : Repository)
    (hr : from_http_url ru = some r) (hh : from_http_url hu = some h) :
    repo_from_metadata (some ru) (some hu) = some r ∧
    repo_from_metadata none (some hu) = some h ∧
    (∀ ru', from_http_url ru' = none →
      repo_from_metadata (some ru') (some hu) = some h) := by
  refine ⟨?_, ?_, ?_⟩
  · simp [repo_from_metadata, hr, Option.orElse]
  · simp [repo_from_metadata, hh, Option.orElse]
  · intro ru' hru'
    simp [repo_from_metadata, hru', hh, Option.orElse]

/-- C7 witness: concrete repository and homepage URLs that both parse. -/
theorem c7_repository_field_precedence_witness :
    repo_from_metadata (some (githubHttpsUrl ['a'] ['b']))
        (some (githubHttpsUrl ['c'] ['d'])) = some ⟨['a'], ['b']⟩ ∧
    repo_from_metadata none (some (githubHttpsUrl ['c'] ['d']))
      = some ⟨['c'], ['d']⟩ ∧
    (∀ ru', from_http_url ru' = none →
      repo_from_metadata (some ru') (some (githubHttpsUrl ['c'] ['d']))
        = some ⟨['c'], ['d']⟩) :=
  c7_repository_field_precedence (githubHttpsUrl ['a'] ['b'])
    (githubHttpsUrl ['c'] ['d']) ⟨['a'], ['b']⟩ ⟨['c'], ['d']⟩
    (by decide) (by decide)

theorem pending_issues_run_ok_items {α : Type} (items : List α)
    (l : List (Except HubError α)) :
    pending_issues_run (items.map Except.ok ++ l)
      = (items ++ (pending_issues_run l).1, (pending_issues_run l).2) := by
  induction items with
  | nil => simp
  | cons a rest ih => simp [pending_issues_run, pending_step, ih]

/-- C2: classification of a failed page fetch, after any number of
successfully delivered items: HTTP 422 ends the stream quietly; a rate-limit
signal ends it quietly; HTTP 403 without a rate-limit signal ends it quietly;
any other HTTP fault is propagated as the stream's terminal error. -/
theorem c2_failure_classification {α : Type} (items : List α)
    (rest : List (Except HubError α)) :
    (∀ reset, pending_issues_run
        (items.map Except.ok ++ Except.error (HubError.rateLimit reset) :: rest)
      = (items, none)) ∧
    (∀ msg, pending_issues_run
        (items.map Except.ok ++ Except.error (HubError.fault 422 msg) :: rest)
      = (items, none)) ∧
    (∀ msg, pending_issues_run
        (items.map Except.ok ++ Except.error (HubError.fault 403 msg) :: rest)
      = (items, none)) ∧
    (∀ code msg, code ≠ 422 → code ≠ 403 → pending_issues_run
        (items.map Except.ok ++ Except.error (HubError.fault code msg) :: rest)
      = (items, some (HubError.fault code msg))) := by
  refine ⟨?_, ?_, ?_, ?_⟩
  · intro reset
    rw [pending_issues_run_ok_items]
    simp [pending_issues_run, pending_step]
  · intro msg
    rw [pending_issues_run_ok_items]
    simp [pending_issues_run, pending_step]
  · intro msg
    rw [pending_issues_run_ok_items]
    simp [pending_issues_run, pending_step]
  · intro code msg h422 h403
    rw [pending_issues_run_ok_items]
    simp [pending_issues_run, pending_step, h422, h403]

/-- C2 witness: a stream delivering one item and then an HTTP 500 fault
terminates with that error. -/
theorem c2_failure_classification_witness :
    pending_issues_run
        (([7] : List Nat).map Except.ok
          ++ Except.error (HubError.fault 500 []) :: [])
      = ([7], some (HubError.fault 500 [])) :=
  (c2_failure_classification [7] []).2.2.2 500 [] (by decide) (by decide)

theorem resolvedReposAux_mem {α : Type} (resolve : α → Option Repository)
    (deps : List α) (seen : List Repository) (r : Repository) :
    r ∈ resolvedReposAux resolve deps seen
      ↔ (r ∉ seen ∧ ∃ d ∈ deps, resolve d = some r) := by
  induction deps generalizing seen with
  | nil => simp [resolvedReposAux]
  | cons d rest ih =>
    cases hres : resolve d with
    | none =>
      simp only [resolvedReposAux, hres, ih, List.mem_cons]
      constructor
      · rintro ⟨hns, d', hd', hr⟩
        exact ⟨hns, d', Or.inr hd', hr⟩
      · rintro ⟨hns, d', rfl | hd', hr⟩
        · rw [hres] at hr
          exact absurd hr (by simp)
        · exact ⟨hns, d', hd', hr⟩
    | some r₀ =>
      by_cases hseen : r₀ ∈ seen
      · simp only [resolvedReposAux, hres, if_pos hseen, ih, List.mem_cons]
        constructor
        · rintro ⟨hns, d', hd', hr⟩
          exact ⟨hns, d', Or.inr hd', hr⟩
        · rintro ⟨hns, d', rfl | hd', hr⟩
          · rw [hres] at hr
            injection hr with h2
            subst h2
            exact absurd hseen hns
          · exact ⟨hns, d', hd', hr⟩
      · simp only [resolvedReposAux, hres, if_neg hseen]
        rw [List.mem_cons, ih (r₀ :: seen)]
        constructor
        · rintro (rfl | ⟨hns, d', hd', hr⟩)
          · exact ⟨hseen, d, by simp, hres⟩
          · exact ⟨fun hm => hns (by simp [hm]), d', by simp [hd'], hr⟩
        · rintro ⟨hns, d', hd', hr⟩
          by_cases hrr : r = r₀
          · exact Or.inl hrr
          · right
            rcases List.mem_cons.mp hd' with rfl | hd2
            · rw [hres] at hr
              injection hr with h2
              exact absurd h2.symm hrr
            · refine ⟨?_, d', hd2, hr⟩
              intro hm
              rcases List.mem_cons.mp hm with h3 | h3
              · exact hrr h3
              · exact hns h3

theorem resolvedReposAux_nodup {α : Type} (resolve : α → Option Repository)
    (deps : List α) (seen : List Repository) :
    (resolvedReposAux resolve deps seen).Nodup := by
  induction deps generalizing seen with
  | nil => simp [resolvedReposAux]
  | cons d rest ih =>
    cases hres : resolve d with
    | none => simpa [resolvedReposAux, hres] using ih seen
    | some r₀ =>
      by_cases hseen : r₀ ∈ seen
      · simpa [resolvedReposAux, hres, if_pos hseen] using ih seen
      · simp only [resolvedReposAux, hres, if_neg hseen, List.nodup_cons]
        refine ⟨?_, ih (r₀ :: seen)⟩
        intro hmem
        exact ((resolvedReposAux_mem resolve rest (r₀ :: seen) r₀).mp hmem).1
          (by simp)

/-- C3: in one run of `suggest_issues` the issue-search stream is opened at
most once per repository identity (the opened list has no duplicates), a
stream is opened for a repository exactly when some dependency resolves to
it, and it is opened exactly once for each such repository.  The
deduplication set is empty at the start of the run by construction
(`opened_streams` seeds the accumulator with the empty set). -/
theorem c3_streams_opened_once {α : Type} (resolve : α → Option Repository)
    (deps : List α) :
    (opened_streams resolve deps).Nodup ∧
    (∀ r, r ∈ opened_streams resolve deps ↔ ∃ d ∈ deps, resolve d = some r) ∧
    (∀ r, (opened_streams resolve deps).count r = 1
      ↔ ∃ d ∈ deps, resolve d = some r) := by
  have hnd := resolvedReposAux_nodup resolve deps []
  have hmem := fun r => resolvedReposAux_mem resolve deps [] r
  refine ⟨hnd, fun r => ?_, fun r => ?_⟩
  · rw [opened_streams, hmem r]
    simp
  · constructor
    · intro hcount
      have : r ∈ opened_streams resolve deps := by
        rw [← List.count_pos_iff, hcount]
        omega
      rw [opened_streams, hmem r] at this
      exact this.2
    · intro hex
      have hmem' : r ∈ opened_streams resolve deps := by
        rw [opened_streams, hmem r]
        exact ⟨by simp, hex⟩
      exact List.count_eq_one_of_mem hnd hmem'

theorem getAttr_isSome_any (attrs : List (Str × Str)) (k : Str) :
    (getAttr attrs k).isSome = attrs.any (fun p => p.1 == k) := by
  induction attrs with
  | nil => rfl
  | cons a l ih =>
    cases h : (a.1 == k) with
    | true => simp [getAttr, List.filter_cons, h]
    | false => simpa [getAttr, List.filter_cons, h] using ih

theorem any_attr_filterMap (es : List (Str × Toml)) (k : Str) :
    (es.filterMap (fun p => (as_str p.2).map (fun s => (p.1, s)))).any
        (fun p => p.1 == k)
      = es.any (fun p => p.1 == k && (as_str p.2).isSome) := by
  induction es with
  | nil => rfl
  | cons q es ih =>
    cases hq : as_str q.2 with
    | none => simp [List.filterMap_cons, hq, ih]
    | some s => simp [List.filterMap_cons, hq, ih]

theorem depAttrs_specifies {t : Toml} {attrs : List (Str × Str)}
    (h : depAttrs t = some attrs) (k : Str) :
    specifiesAttr t k = (getAttr attrs k).isSome := by
  cases t with
  | str s =>
    simp only [depAttrs, Option.some.injEq] at h
    subst h
    rw [getAttr_isSome_any]
    by_cases hk : k = versionKey
    · subst hk; simp [specifiesAttr]
    · simp [specifiesAttr, hk, Ne.symm hk]
  | table es =>
    simp only [depAttrs, Option.some.injEq] at h
    subst h
    rw [getAttr_isSome_any, any_attr_filterMap]
    rfl
  | other => simp [depAttrs] at h

/-- C8: constructing a `Dependency` from a manifest entry succeeds exactly
when the entry specifies exactly one of the `version`/`path`/`git` location
attributes (a bare version string counts as `version`); otherwise it yields
an error; and on success the single populated location variant matches the
attribute that was present. -/
theorem c8_from_toml_exactly_one_location (name : Str) (t : Toml) :
    ((∃ d, from_toml name t = Except.ok d)
      ↔ exactlyOne (specifiesAttr t versionKey) (specifiesAttr t pathKey)
          (specifiesAttr t gitKey) = true) ∧
    (∀ d, from_toml name t = Except.ok d →
      ((∃ v, d.location = CrateLocation.registry v)
          ↔ specifiesAttr t versionKey = true) ∧
      ((∃ p, d.location = CrateLocation.filesystem p)
          ↔ specifiesAttr t pathKey = true) ∧
      ((∃ u, d.location = CrateLocation.git u)
          ↔ specifiesAttr t gitKey = true)) := by
  cases ht : depAttrs t with
  | none =>
    cases t with
    | str s => simp [depAttrs] at ht
    | table es => simp [depAttrs] at ht
    | other =>
      constructor
      · simp [from_toml, depAttrs, specifiesAttr, exactlyOne]
      · intro d hd
        simp [from_toml, depAttrs] at hd
  | some attrs =>
    have hsv := depAttrs_specifies ht versionKey
    have hsp := depAttrs_specifies ht pathKey
    have hsg := depAttrs_specifies ht gitKey
    constructor
    · rw [hsv, hsp, hsg]
      cases hgv : getAttr attrs versionKey <;>
        cases hgp : getAttr attrs pathKey <;>
          cases hgg : getAttr attrs gitKey <;>
            simp [from_toml, ht, hgv, hgp, hgg, exactlyOne]
    · intro d hd
      rw [from_toml, ht] at hd
      cases hgv : getAttr attrs versionKey <;>
        cases hgp : getAttr attrs pathKey <;>
          cases hgg : getAttr attrs gitKey <;>
            simp [hgv, hgp, hgg] at hd <;>
              (subst hd
               simp [hsv, hsp, hsg, hgv, hgp, hgg])

/-- C8 witness: a bare version string yields a registry dependency; an entry
with both `path` and `git` fails. -/
theorem c8_from_toml_witness :
    (∃ d, from_toml ['f', 'o', 'o'] (Toml.str ['1']) = Except.ok d) ∧
    (∀ d, from_toml ['f', 'o', 'o'] (Toml.str ['1']) = Except.ok d →
      ((∃ v, d.location = CrateLocation.registry v)
          ↔ specifiesAttr (Toml.str ['1']) versionKey = true) ∧
      ((∃ p, d.location = CrateLocation.filesystem p)
          ↔ specifiesAttr (Toml.str ['1']) pathKey = true) ∧
      ((∃ u, d.location = CrateLocation.git u)
          ↔ specifiesAttr (Toml.str ['1']) gitKey = true)) :=
  ⟨(c8_from_toml_exactly_one_location ['f', 'o', 'o'] (Toml.str ['1'])).1.mpr
      (by decide),
   (c8_from_toml_exactly_one_location ['f', 'o', 'o'] (Toml.str ['1'])).2⟩

theorem getD_second_last {α : Type} (l : List α) (d : α) :
    (if l.length > 1 then l.getD (l.length - 2) d else d) = l.reverse.getD 1 d := by
  by_cases h : l.length > 1
  · rw [if_pos h, List.getD_eq_getElem?_getD, List.getD_eq_getElem?_getD,
        List.getElem?_reverse (by simpa using h),
        show l.length - 1 - 1 = l.length - 2 from by omega]
  · rw [if_neg h, List.getD_eq_getElem?_getD,
        List.getElem?_eq_none (by simp only [List.length_reverse]; omega)]
    rfl

theorem getD_last {α : Type} (l : List α) (d : α) :
    (if l.length > 0 then l.getD (l.length - 1) d else d) = l.reverse.getD 0 d := by
  by_cases h : l.length > 0
  · rw [if_pos h, List.getD_eq_getElem?_getD, List.getD_eq_getElem?_getD,
        List.getElem?_reverse (by simpa using h),
        show l.length - 1 - 0 = l.length - 1 from by omega]
  · rw [if_neg h, List.getD_eq_getElem?_getD,
        List.getElem?_eq_none (by simp only [List.length_reverse]; omega)]
    rfl

/-- C10: a successful conversion of a search result sets the issue body to
the empty string when the upstream result has no body (and to the body
otherwise), and derives the owner and name from the last two path segments of
the result's repository URL, substituting empty strings when the URL has
fewer than two (or fewer than one) segments. -/
theorem c10_issue_from_issues_item (item : IssuesItem) (iss : Issue)
    (h : issue_from_issues_item item = some iss) :
    (item.body = none → iss.body = []) ∧
    iss.body = item.body.getD [] ∧
    (∀ u, urlParse item.repository_url = some u →
      iss.repo.owner = u.pathSegments.reverse.getD 1 [] ∧
      iss.repo.name = u.pathSegments.reverse.getD 0 []) := by
  unfold issue_from_issues_item repo_tuple at h
  cases hu : urlParse item.repository_url with
  | none => rw [hu] at h; exact absurd h (by simp)
  | some u =>
    rw [hu] at h
    simp only [Option.some.injEq] at h
    subst h
    refine ⟨fun hb => by simp [hb], rfl, ?_⟩
    intro u' hu'
    injection hu' with hu'
    subst hu'
    exact ⟨getD_second_last u.pathSegments [], getD_last u.pathSegments []⟩

/-- C10 witness: the conversion evaluated on the concrete item. -/
theorem c10_issue_from_issues_item_witness :
    (sampleIssuesItem.body = none → sampleIssue.body = []) ∧
    sampleIssue.body = sampleIssuesItem.body.getD [] ∧
    (∀ u, urlParse sampleIssuesItem.repository_url = some u →
      sampleIssue.repo.owner = u.pathSegments.reverse.getD 1 [] ∧
      sampleIssue.repo.name = u.pathSegments.reverse.getD 0 []) :=
  c10_issue_from_issues_item sampleIssuesItem sampleIssue (by decide)

/-- C1: evaluation of `read_cached_manifest` at the failing input.  With two
cached satisfying versions `1.0.0` and `2.0.0`, the code returns the manifest
of `1.0.0` — the lowest satisfying version — because it sorts ascending by
version and takes the first element, contradicting the claim (and the code's
own comment, which says to pick the newest matching version); mtime is never
consulted.  When no cached version satisfies the constraint the lookup is
empty, which lets the caller fall through to the live registry lookup. -/
theorem c1_cache_selects_lowest_version :
    read_cached_manifest fooCacheState (fun _ => true) = .ok (some fooPkg1) ∧
    fooPkg1 ≠ fooPkg2 ∧
    read_cached_manifest fooCacheState (fun v => decide (3 ≤ v.major)) = .ok none := by
  decide

theorem collectMatching_ok (req : SemVersion → Bool) (entries : List CacheEntry)
    (h : ∀ e ∈ entries, (versionParse (version_suffix e.dirName)).isSome = true) :
    ∃ pairs, collectMatching req entries = .ok pairs := by
  induction entries with
  | nil => exact ⟨[], rfl⟩
  | cons e rest ih =>
    have he := h e (by simp)
    obtain ⟨v, hv⟩ := Option.isSome_iff_exists.mp he
    obtain ⟨tail, htail⟩ := ih (fun e' he' => h e' (by simp [he']))
    refine ⟨if req v then (v, e) :: tail else tail, ?_⟩
    simp [collectMatching, hv, htail]

/-- C9 counterexample: a cache entry whose directory name's version suffix
does not parse as a version makes the lookup panic (modelled as an error),
rather than degrade to an empty result. -/
theorem c9_counterexample :
    read_cached_manifest
        { root := some ['r'],
          entries := [{ dirName := ['f', 'o', 'o', '-', 'b', 'a', 'd'],
                        manifestExists := true, manifest := none }] }
        (fun _ => true)
      = .error (CachePanic.versionParseFailure ['f', 'o', 'o', '-', 'b', 'a', 'd']) := by
  decide

/-- C9 (amended): the cache lookup never errs as long as every globbed
entry's version suffix parses — in particular a missing cache root, no
matching or satisfying entry, and a missing or unreadable manifest all
degrade to an empty result — but an entry whose version suffix does not
parse causes a panic. -/
theorem c9_cache_lookup_best_effort (st : CacheState) (req : SemVersion → Bool)
    (h : ∀ e ∈ st.entries, (versionParse (version_suffix e.dirName)).isSome = true) :
    (∃ r, read_cached_manifest st req = .ok r) ∧
    (st.root = none → read_cached_manifest st req = .ok none) := by
  constructor
  · cases hroot : st.root with
    | none => exact ⟨none, by simp [read_cached_manifest, hroot]⟩
    | some rt =>
      obtain ⟨pairs, hpairs⟩ := collectMatching_ok req st.entries h
      cases hhead : (sortByVersion pairs).head? with
      | none =>
        exact ⟨none, by simp [read_cached_manifest, hroot, hpairs, hhead]⟩
      | some pe =>
        by_cases hex : pe.2.manifestExists
        · cases hman : pe.2.manifest with
          | none =>
            refine ⟨none, ?_⟩
            simp [read_cached_manifest, hroot, hpairs, hhead, hex, hman]
          | some p =>
            refine ⟨some p, ?_⟩
            simp [read_cached_manifest, hroot, hpairs, hhead, hex, hman]
        · refine ⟨none, ?_⟩
          simp [read_cached_manifest, hroot, hpairs, hhead, hex]
  · intro hroot
    simp [read_cached_manifest, hroot]

/-- C9 witness: the amended statement at a concrete one-entry cache whose
manifest is unreadable. -/
theorem c9_cache_lookup_best_effort_witness :
    (∃ r, read_cached_manifest
        { root := some ['r'],
          entries := [{ dirName := ['f', 'o', 'o', '-', '1', '.', '2', '.', '3'],
                        manifestExists := true, manifest := none }] }
        (fun _ => true) = .ok r) ∧
    (({ root := some ['r'],
        entries := [{ dirName := ['f', 'o', 'o', '-', '1', '.', '2', '.', '3'],
                      manifestExists := true, manifest := none }] } : CacheState).root
        = none →
      read_cached_manifest
        { root := some ['r'],
          entries := [{ dirName := ['f', 'o', 'o', '-', '1', '.', '2', '.', '3'],
                        manifestExists := true, manifest := none }] }
        (fun _ => true) = .ok none) :=
  c9_cache_lookup_best_effort
    { root := some ['r'],
      entries := [{ dirName := ['f', 'o', 'o', '-', '1', '.', '2', '.', '3'],
                    manifestExists := true, manifest := none }] }
    (fun _ => true) (by decide)
